import Mathlib

/-!
Verification development for the asyn reactor core of the Cynical_Calendars
repository (Server Plugin/asyn). The Python modules are shallowly embedded:
pure data transformations become Lean functions over `List Char` (Python 2
byte strings are character strings), stateful objects become explicit state
records, and fallible operations return `Option` or sum types. Each claim of
the specification is settled by a theorem below the definitions.
-/

namespace Asyn

/- ============================================================
   asyn/core.py : Callable (callback funnel)
   ============================================================ -/

/-- Observer identity. In the source an observer is a Python callable; for the
dispatch bookkeeping only its identity matters, so observers are names. -/
abbrev Obs := Nat

/-- Mutations an observer may perform on the funnel while a callout is in
flight, mirroring the Callable mutator methods of asyn/core.py:
add_callout appends (a truthy callee), remove_callout removes the first
occurrence, set_callout replaces the whole list, clear_callouts empties it. -/
inductive FunnelOp where
  | add (o : Obs)
  | remove (o : Obs)
  | setOne (o : Obs)
  | clear
deriving DecidableEq, Repr

/-- Effect of one FunnelOp on the live callback list, following the method
bodies in asyn/core.py (add_callout appends, remove_callout erases the first
occurrence and tolerates absence when not required, set_callout replaces,
clear_callouts empties). -/
def applyFunnelOp (cbs : List Obs) : FunnelOp → List Obs
  | .add o => cbs ++ [o]
  | .remove o => cbs.erase o
  | .setOne o => [o]
  | .clear => []

/-- Behaviour of one observer during its invocation: the funnel mutations it
performs, in order. -/
def runObserver (eff : Obs → List FunnelOp) (cbs : List Obs) (o : Obs) : List Obs :=
  (eff o).foldl applyFunnelOp cbs

/-- Callable.callout from asyn/core.py. The source latches the callback list
with list(self._callbacks) and iterates the copy while each invoked observer
may mutate the live list. The result is the pair of (sequence of observers
actually invoked, in invocation order) and the callback list after the callout
returns. -/
def Callable.callout (eff : Obs → List FunnelOp) (cbs : List Obs) :
    List Obs × List Obs :=
  let latched := cbs
  latched.foldl (fun acc o => (acc.1 ++ [o], runObserver eff acc.2 o)) ([], cbs)

/-- Replay a sequence of registration operations (the add/remove/set/clear API
of Callable) starting from the empty funnel. -/
def Callable.runOps (ops : List FunnelOp) : List Obs :=
  ops.foldl applyFunnelOp []

/- ============================================================
   asyn/selectable.py + asyn/controller.py : Selectable.close
   ============================================================ -/

/-- Events observable on a Selectable funnel that matter for the close
protocol. -/
inductive SelEv where
  | closeEv
  | otherEv (tag : Nat)
deriving DecidableEq, Repr

/-- State of one Selectable together with the descriptor map of its
Controller. The control field mirrors self.control (some reference or None),
fdmap mirrors the keys of Controller._map, events is the trace of callouts
emitted on the funnel of the object. -/
structure SelState where
  fd : Nat
  control : Bool
  fdmap : List Nat
  events : List SelEv
deriving DecidableEq, Repr

/-- Controller.insert from asyn/controller.py, restricted to its effect on the
descriptor map: the fd is added (the source asserts it is not already
present). -/
def Controller.insert (m : List Nat) (fd : Nat) : List Nat := m ++ [fd]

/-- Controller.remove from asyn/controller.py: del self._map[selectable.fileno()]
removes exactly the key of this descriptor. -/
def Controller.remove (m : List Nat) (fd : Nat) : List Nat := m.erase fd

/-- Selectable construction (asyn/selectable.py __init__): stores the control
reference and registers with Controller.insert. -/
def Selectable.mk' (fd : Nat) (m : List Nat) : SelState :=
  { fd := fd, control := true, fdmap := Controller.insert m fd, events := [] }

/-- Selectable.close from asyn/selectable.py: if self.control is set, emit the
CLOSE callout, remove the object from the Controller map, and clear
self.control so a repeated close does nothing. -/
def Selectable.close (s : SelState) : SelState :=
  if s.control then
    { s with
      control := false
      fdmap := Controller.remove s.fdmap s.fd
      events := s.events ++ [SelEv.closeEv] }
  else s

/-- Count of CLOSE events in a trace. -/
def countClose (evs : List SelEv) : Nat := evs.count SelEv.closeEv

/- ============================================================
   asyn/http_chunk.py : ChunkedCoder
   ============================================================ -/

/-- Value of one hexadecimal digit, as accepted by int(s, 16). -/
def hexDigitVal (c : Char) : Option Nat :=
  if '0' ≤ c ∧ c ≤ '9' then some (c.toNat - '0'.toNat)
  else if 'a' ≤ c ∧ c ≤ 'f' then some (c.toNat - 'a'.toNat + 10)
  else if 'A' ≤ c ∧ c ≤ 'F' then some (c.toNat - 'A'.toNat + 10)
  else none

/-- Parse of a nonempty hexadecimal numeral, as int(header, 16) does for the
plain-digit strings produced on the wire; malformed input yields none (the
source raises ValueError there). -/
def hexVal : List Char → Option Nat
  | [] => none
  | l => l.foldl (fun acc c => match acc, hexDigitVal c with
      | some a, some d => some (a * 16 + d)
      | _, _ => none) (some 0)

/-- Uppercase hex digit of a value below 16, as produced by the %X format. -/
def hexDigitChar (n : Nat) : Char :=
  if n < 10 then Char.ofNat ('0'.toNat + n)
  else Char.ofNat ('A'.toNat + (n - 10))

/-- Digit recursion for toHex, structural on a fuel argument so that the
kernel can evaluate it; any fuel above the value itself suffices because the
quotient shrinks at every step. -/
def toHexAux : Nat → Nat → List Char
  | 0, _ => []
  | fuel + 1, n =>
      if n < 16 then [hexDigitChar n]
      else toHexAux fuel (n / 16) ++ [hexDigitChar (n % 16)]

/-- Uppercase hexadecimal rendering of n (%X format): most significant digit
first, and 0 renders as the single digit 0. -/
def toHex (n : Nat) : List Char := toHexAux (n + 1) n

/-- Index of the first CR LF pair in the buffer, as data.find of the two-byte
string does in the source; none when no such pair occurs. -/
def findCRLF : List Char → Option Nat
  | [] => none
  | c :: rest =>
      if c = '\r' ∧ rest.head? = some '\n' then some 0
      else (findCRLF rest).map (· + 1)

/-- Prefix of the header line up to the first semicolon, as
header.partition of the one-byte separator keeps field zero (chunk extensions
are discarded). -/
def chunkHeaderBody : List Char → List Char
  | [] => []
  | c :: rest => if c = ';' then [] else c :: chunkHeaderBody rest

/-- Persistent decoder state of ChunkedCoder: _pending is the deferred buffer
(None and the empty string behave identically under the truthiness test of
the source, so both are the empty list), _remain counts bytes still owed to
the current chunk including its trailing CR LF. -/
structure ChunkState where
  pending : List Char
  remain : Nat
deriving DecidableEq, Repr

/-- Outcome of one _pass_downstream call: the bytes delivered downstream via
_scan (concatenated; with no scanner installed Scannable delivers them as RAW
callouts unchanged), and either a deferred state, the END callout carrying the
unparsed trailer, or the ValueError of int(header, 16) on a malformed
header. -/
inductive ChunkOut where
  | more (sent : List Char) (st : ChunkState)
  | ended (sent : List Char) (trailer : List Char) (st : ChunkState)
  | badHeader (sent : List Char)
  | fuelOut
deriving DecidableEq, Repr

/-- Prepend earlier downstream output to an outcome. -/
def ChunkOut.prepend (pre : List Char) : ChunkOut → ChunkOut
  | .more sent st => .more (pre ++ sent) st
  | .ended sent trailer st => .ended (pre ++ sent) trailer st
  | .badHeader sent => .badHeader (pre ++ sent)
  | .fuelOut => .fuelOut

/-- Result of the chunk-header parse step at a chunk boundary: the header
line is incomplete (defer the buffer), malformed (ValueError), the
zero-length last-chunk, or a proper chunk of v data bytes followed by the
remainder of the buffer after the header line. -/
inductive HeaderStep where
  | defer
  | bad
  | lastChunk (rest : List Char)
  | chunk (v : Nat) (rest : List Char)
deriving DecidableEq, Repr

/-- Numeric part of the header parse: read the hex length v of the header
line body; v = 0 is the last-chunk marker, rest is the buffer after the
header line. -/
def headerNum (hdr rest : List Char) : HeaderStep :=
  match hexVal (chunkHeaderBody hdr) with
  | none => .bad
  | some v => if v = 0 then .lastChunk rest else .chunk v rest

/-- Chunk-header parse from the body of _pass_downstream: locate the first
CR LF, strip chunk extensions after a semicolon, read the hex length v, and
drop the header line; v = 0 is the last-chunk marker. -/
def headerStep (data : List Char) : HeaderStep :=
  match findCRLF data with
  | none => .defer
  | some hlen => headerNum (data.take hlen) (data.drop (hlen + 2))

theorem findCRLF_bound {data : List Char} {i : Nat} (h : findCRLF data = some i) :
    i + 2 ≤ data.length := by
  induction data generalizing i with
  | nil => simp [findCRLF] at h
  | cons c cs ih =>
      unfold findCRLF at h
      by_cases hc : c = '\r' ∧ cs.head? = some '\n'
      · rw [if_pos hc] at h
        cases h
        cases cs with
        | nil => simp at hc
        | cons d ds => simp only [List.length_cons]; omega
      · rw [if_neg hc] at h
        rcases Option.map_eq_some'.mp h with ⟨k, hk, hke⟩
        have := ih hk
        subst hke
        simp only [List.length_cons]
        omega

theorem headerNum_chunk_rest {hdr rest out : List Char} {v : Nat}
    (h : headerNum hdr rest = .chunk v out) : out = rest := by
  unfold headerNum at h
  split at h
  · exact absurd h (by simp)
  · split at h
    · exact absurd h (by simp)
    · cases h; rfl

theorem headerNum_lastChunk_rest {hdr rest out : List Char}
    (h : headerNum hdr rest = .lastChunk out) : out = rest := by
  unfold headerNum at h
  split at h
  · exact absurd h (by simp)
  · split at h
    · cases h; rfl
    · exact absurd h (by simp)

theorem headerStep_chunk_length {data rest : List Char} {v : Nat}
    (h : headerStep data = .chunk v rest) : rest.length + 2 ≤ data.length := by
  unfold headerStep at h
  split at h
  · exact absurd h (by simp)
  · rename_i hlen hf
    have hb := findCRLF_bound hf
    have hrest := headerNum_chunk_rest h
    subst hrest
    simp only [List.length_drop]
    omega

theorem headerStep_lastChunk_length {data rest : List Char}
    (h : headerStep data = .lastChunk rest) : rest.length + 2 ≤ data.length := by
  unfold headerStep at h
  split at h
  · exact absurd h (by simp)
  · rename_i hlen hf
    have hb := findCRLF_bound hf
    have hrest := headerNum_lastChunk_rest h
    subst hrest
    simp only [List.length_drop]
    omega

/-- Bytes consumed from the buffer towards the current chunk:
rlen = min(len(data), remain). -/
def chunkRlen (remain : Nat) (data : List Char) : Nat := min data.length remain

/-- Bytes actually delivered downstream out of one consumed span. The source
computes sendlen = rlen - min(2 - remain2, 0) with remain2 the remaining
count after the consumption; over the integers this equals
rlen + max(remain2 - 2, 0), which on Nat is rlen + (remain2 - 2) with
truncated subtraction. -/
def chunkSendlen (remain : Nat) (data : List Char) : Nat :=
  chunkRlen remain data + (remain - chunkRlen remain data - 2)

/-- Loop body of ChunkedCoder._pass_downstream from asyn/http_chunk.py,
after the pending buffer has been merged, recursing on a fuel argument that
bounds the number of while iterations. Every iteration with a nonempty
buffer consumes at least one byte, so any fuel above the buffer length is
enough; passLoopF_fuel and passLoop make that budget canonical. One
iteration first serves the current chunk: rlen bytes are consumed and
data[:sendlen] is delivered downstream via _scan. It then parses a chunk
header when the chunk boundary was reached and data is left: an incomplete
header defers the buffer, the zero-length last-chunk emits END with the
unparsed remainder as trailer, otherwise remain becomes the chunk length
plus two for the trailing CR LF and the loop continues. -/
def passLoopF : Nat → Nat → List Char → ChunkOut
  | 0, _, _ => .fuelOut
  | fuel + 1, remain, data =>
      if data = [] then .more [] ⟨[], remain⟩
      else if remain = 0 then
        match headerStep data with
        | .defer => .more [] ⟨data, 0⟩
        | .bad => .badHeader []
        | .lastChunk rest => .ended [] rest ⟨rest, 2⟩
        | .chunk v rest => passLoopF fuel (v + 2) rest
      else
        if remain - chunkRlen remain data = 0 ∧ data.drop (chunkRlen remain data) ≠ [] then
          match headerStep (data.drop (chunkRlen remain data)) with
          | .defer =>
              ChunkOut.more (data.take (chunkSendlen remain data))
                ⟨data.drop (chunkRlen remain data), 0⟩
          | .bad => ChunkOut.badHeader (data.take (chunkSendlen remain data))
          | .lastChunk rest =>
              ChunkOut.ended (data.take (chunkSendlen remain data)) rest ⟨rest, 2⟩
          | .chunk v rest =>
              ChunkOut.prepend (data.take (chunkSendlen remain data)) (passLoopF fuel (v + 2) rest)
        else
          ChunkOut.prepend (data.take (chunkSendlen remain data))
            (passLoopF fuel (remain - chunkRlen remain data) (data.drop (chunkRlen remain data)))

/-- The fuel budget data.length + 1 is sufficient: adding more fuel does not
change the outcome, so passLoop below computes exactly the unbounded Python
while loop. -/
theorem passLoopF_fuel (fuel : Nat) :
    ∀ (remain : Nat) (data : List Char), data.length < fuel →
      passLoopF (fuel + 1) remain data = passLoopF fuel remain data := by
  induction fuel with
  | zero => intro remain data h; omega
  | succ f ih =>
      intro remain data h
      conv_lhs => rw [passLoopF]
      conv_rhs => rw [passLoopF]
      by_cases hdata : data = []
      · rw [if_pos hdata, if_pos hdata]
      · rw [if_neg hdata, if_neg hdata]
        have hpos : 0 < data.length := List.length_pos.mpr hdata
        by_cases hrem : remain = 0
        · rw [if_pos hrem, if_pos hrem]
          cases hh : headerStep data with
          | defer => rfl
          | bad => rfl
          | lastChunk rest => rfl
          | chunk v rest =>
              have hlen := headerStep_chunk_length hh
              exact ih (v + 2) rest (by omega)
        · rw [if_neg hrem, if_neg hrem]
          by_cases hb : remain - chunkRlen remain data = 0 ∧
              data.drop (chunkRlen remain data) ≠ []
          · rw [if_pos hb, if_pos hb]
            cases hh : headerStep (data.drop (chunkRlen remain data)) with
            | defer => rfl
            | bad => rfl
            | lastChunk rest => rfl
            | chunk v rest =>
                have hlen := headerStep_chunk_length hh
                simp only [List.length_drop] at hlen
                dsimp only
                rw [ih (v + 2) rest (by omega)]
          · rw [if_neg hb, if_neg hb]
            have hr : 1 ≤ chunkRlen remain data := by
              unfold chunkRlen
              omega
            rw [ih (remain - chunkRlen remain data) (data.drop (chunkRlen remain data))
              (by simp only [List.length_drop]; omega)]

/-- Wire-parsing loop with its canonical, provably sufficient fuel budget. -/
def passLoop (remain : Nat) (data : List Char) : ChunkOut :=
  passLoopF (data.length + 1) remain data

/-- ChunkedCoder._pass_downstream: merge the pending buffer with the new data
and run the wire-parsing loop. -/
def passDownstream (st : ChunkState) (data : List Char) : ChunkOut :=
  passLoop st.remain (st.pending ++ data)

/-- ChunkedCoder.write: each write goes out as one wire chunk, a %X length
line, CR LF, the data, CR LF. -/
def chunkedWrite (data : List Char) : List Char :=
  toHex data.length ++ ['\r', '\n'] ++ data ++ ['\r', '\n']

/-- ChunkedCoder.write_flush: the zero-length last-chunk marker with no
trailers. -/
def chunkedWriteFlush : List Char := ['0', '\r', '\n', '\r', '\n']

/-- Wire bytes produced by a sequence of write calls followed by
write_flush. -/
def chunkedEncode (writes : List (List Char)) : List Char :=
  (writes.map chunkedWrite).flatten ++ chunkedWriteFlush

/-- Fresh decoder state right after ChunkedCoder.open. -/
def chunkOpen : ChunkState := ⟨[], 0⟩

/-- Downstream bytes delivered when an outcome is observed. -/
def ChunkOut.sentBytes : ChunkOut → List Char
  | .more sent _ => sent
  | .ended sent _ _ => sent
  | .badHeader sent => sent
  | .fuelOut => []

/- ============================================================
   asyn/zfilter.py : GZipCoder
   ============================================================ -/

/-- Model of a zlib compressobj. The repository calls zlib through exactly
three operations: compressobj construction, compress, and flush(Z_FINISH).
The only property of zlib the round-trip claim consumes is lossless
recovery: decompressing the concatenation of all compress outputs plus the
final flush yields exactly the bytes fed to compress. We realise that
contract with the buffering codec that emits nothing from compress and
everything from the finishing flush; zDecompress below is its exact
inverse. The GZipCoder logic under test is independent of this choice. -/
structure ZComp where
  fed : List Char
deriving DecidableEq, Repr

/-- Fresh compressor, as zlib.compressobj(level) returns. -/
def ZComp.init : ZComp := ⟨[]⟩

/-- The compress(data) call: absorb input, emit the pending output (none in
the model codec). -/
def ZComp.compress (z : ZComp) (data : List Char) : ZComp × List Char :=
  (⟨z.fed ++ data⟩, [])

/-- The flush(Z_FINISH) call: emit everything still owed. -/
def ZComp.flushFinish (z : ZComp) : List Char := z.fed

/-- Full decompression of a finished stream of the model codec. -/
def zDecompress (blob : List Char) : List Char := blob

/-- Writer-side state of GZipCoder: _zw is None until the first write. -/
structure GZipWState where
  zw : Option ZComp
deriving DecidableEq, Repr

/-- GZipCoder.write from asyn/zfilter.py, transcribed with its actual
indentation: the upstream.write of the compressed bytes sits inside the
lazy-initialisation branch, so it only runs on the very first write; on
every later write the body is skipped entirely and the data is dropped
without ever reaching the compressor. Returns the new state and the bytes
passed to upstream.write. -/
def GZipCoder.write (st : GZipWState) (data : List Char) : GZipWState × List Char :=
  match st.zw with
  | none =>
      let z := ZComp.init
      let (z2, out) := z.compress data
      (⟨some z2⟩, out)
  | some _ => (st, [])

/-- GZipCoder.write_flush from asyn/zfilter.py: when a compressor exists,
flush it to finish and write any remainder upstream. -/
def GZipCoder.write_flush (st : GZipWState) : List Char :=
  match st.zw with
  | some z => z.flushFinish
  | none => []

/-- All bytes handed to upstream.write over a sequence of write calls
followed by one write_flush. -/
def gzipUpstreamBytes (writes : List (List Char)) : List Char :=
  let fin := writes.foldl
    (fun acc w =>
      let p := GZipCoder.write acc.1 w
      (p.1, acc.2 ++ p.2))
    ((⟨none⟩ : GZipWState), ([] : List Char))
  fin.2 ++ GZipCoder.write_flush fin.1

/-- Reader-side state of GZipCoder: _zr is None until the first RAW data. -/
structure GZipRState where
  zr : Option ZComp
deriving DecidableEq, Repr

/-- GZipCoder.incoming on a RAW context from asyn/zfilter.py: lazily build
the decompressor and call out the decompressed bytes (the model codec keeps
nothing back, so decompress is the identity). -/
def GZipCoder.incomingRAW (st : GZipRState) (data : List Char) :
    GZipRState × List Char :=
  match st.zr with
  | none => (⟨some ⟨[]⟩⟩, zDecompress data)
  | some z => (⟨some z⟩, zDecompress data)

/-- Bytes called out downstream when the upstream bytes arrive as one RAW
delivery followed by END (the END branch flushes the decompressor, which
holds nothing back in the model codec). -/
def gzipDownstreamBytes (wire : List Char) : List Char :=
  (GZipCoder.incomingRAW ⟨none⟩ wire).2

/- ============================================================
   asyn/selectable.py : Stream error paths
   ============================================================ -/

/-- An OS error as carried by OSError: would-block or any other errno. -/
inductive OSErr where
  | eagain
  | other (errno : Nat)
deriving DecidableEq, Repr

/-- Events observable on a Stream funnel for the error-handling claim. -/
inductive StreamEv where
  | raw (data : List Char)
  | endOfInput
  | closed
  | errorEv (e : OSErr)
deriving DecidableEq, Repr

/-- Stream state: control mirrors self.control (registration with the
Controller; None after close), rbuf and wbuf the Scannable read buffer and
the write buffer, sd the _shutdown flag, events the callout trace. No
scanner is installed, so incoming bytes are delivered as RAW callouts and
the read buffer is always drained. -/
structure StreamSt where
  control : Bool
  rbuf : List Char
  wbuf : List Char
  sd : Bool
  events : List StreamEv
deriving DecidableEq, Repr

/-- Stream.close from asyn/selectable.py: Selectable.close (guarded CLOSE
callout plus deregistration) followed by read_flush, which clears the scan
buffer. -/
def Stream.close (s : StreamSt) : StreamSt :=
  if s.control then
    { s with control := false, events := s.events ++ [StreamEv.closed], rbuf := [] }
  else { s with rbuf := [] }

/-- Outcome of the one os.read attempt a _can_read call performs. The empty
list is the null read (EOF indicator). -/
inductive ReadResult where
  | got (data : List Char)
  | failed (e : OSErr)
deriving DecidableEq, Repr

/-- Stream._can_read from asyn/selectable.py given the outcome of its single
os.read call: an OSError of any kind (would-block included, the read path
has no EAGAIN exemption) becomes callout_error and the method returns with
the object untouched and still registered; a null read runs _null_read
(callout END, then close); data is fed to _scan, which with no scanner
installed delivers one RAW callout and empties the buffer. -/
def Stream.canRead (s : StreamSt) (r : ReadResult) : StreamSt :=
  match r with
  | .failed e => { s with events := s.events ++ [StreamEv.errorEv e] }
  | .got [] => Stream.close { s with events := s.events ++ [StreamEv.endOfInput] }
  | .got d => { s with events := s.events ++ [StreamEv.raw (s.rbuf ++ d)], rbuf := [] }

/-- Outcome of the one os.write attempt a _can_write call performs when the
write buffer is nonempty: the count written, or an OSError. -/
inductive WriteResult where
  | wrote (n : Nat)
  | failed (e : OSErr)
deriving DecidableEq, Repr

/-- Stream._can_write from asyn/selectable.py given the outcome of its
single os.write call: on success the written prefix leaves the buffer and a
drained buffer under _shutdown closes the Stream; an EAGAIN OSError returns
silently (retried only when the next readiness cycle calls _can_write
again); any other OSError becomes callout_error, with no close and no
retry of the failed write within this call. -/
def Stream.canWrite (s : StreamSt) (w : WriteResult) : StreamSt :=
  if s.wbuf ≠ [] then
    match w with
    | .failed e =>
        if e = OSErr.eagain then s
        else { s with events := s.events ++ [StreamEv.errorEv e] }
    | .wrote n =>
        let s2 := { s with wbuf := s.wbuf.drop n }
        if s2.wbuf = [] ∧ s2.sd then Stream.close s2 else s2
  else if s.sd then Stream.close s else s

/- ============================================================
   asyn/inject.py : Controller.inject_wait
   ============================================================ -/

/-- A Python value as far as the inject_wait reply protocol can observe it:
the distinguished None, or some other value. -/
inductive PyVal where
  | vNone
  | vInt (n : Int)
  | vStr (s : List Char)
deriving DecidableEq, Repr

/-- An exception object carried between threads. Exception instances are
truthy in Python, which the final `if reply error` test relies on. -/
structure PyExc where
  msg : List Char
deriving DecidableEq, Repr

/-- The reply record of inject_wait, initialised to error None, value
None. -/
structure InjReply where
  error : Option PyExc
  val : PyVal
deriving DecidableEq, Repr

/-- The runner closure inject_wait posts to the reactor: execute the call,
store its value, or store the raised exception, then notify the condition
variable. -/
def injectRunner (call : Except PyExc PyVal) (r : InjReply) : InjReply :=
  match call with
  | .ok v => { r with val := v }
  | .error e => { r with error := some e }

/-- Controller.inject_wait from asyn/inject.py on the cross-thread path
(run_locally false). The caller waits on the condition variable with the
loop guard `reply error is None and reply value is None`; once the reactor
thread has run the injected call and notified, the caller re-checks that
guard. When it still holds — which happens exactly when the call returned
None — the caller waits again with nobody left to notify: inject_wait never
returns, modelled as the outer none. Otherwise the caller re-raises the
stored exception or returns the stored value. -/
def inject_wait (call : Except PyExc PyVal) : Option (Except PyExc PyVal) :=
  let r := injectRunner call ⟨none, PyVal.vNone⟩
  if r.error = none ∧ r.val = PyVal.vNone then none
  else match r.error with
    | some e => some (.error e)
    | none => some (.ok r.val)

/- ============================================================
   asyn/scan.py : ByteLimit
   ============================================================ -/

/-- Events a ByteLimit scanner can call out. -/
inductive LimEv where
  | limitData (data : List Char)
  | limitReached
deriving DecidableEq, Repr

/-- ByteLimit scanner state: the fixed budget, the optional minimum
threshold (None and 0 are both falsy in the gate test of the source), and
the count delivered so far. -/
structure ByteLimit where
  limit : Nat
  threshold : Option Nat
  delivered : Nat
deriving DecidableEq, Repr

/-- A fresh ByteLimit(limit, threshold). -/
def ByteLimit.init (limit : Nat) (threshold : Option Nat) : ByteLimit :=
  ⟨limit, threshold, 0⟩

/-- Truthiness of the threshold attribute: None and 0 are falsy. -/
def thTruthy : Option Nat → Bool
  | none => false
  | some t => t ≠ 0

/-- ByteLimit.scan from asyn/scan.py: with available the running total
including this buffer, a truthy threshold not yet reached stalls (scan
returns None); otherwise the buffer is delivered up to the remaining
budget as a limit-data callout, and whenever the updated delivered count
equals the limit a limit-reached callout follows. Returns the callouts,
the unconsumed remainder handed back to the Scannable, and the new
state; none is the stall. -/
def ByteLimit.scan (st : ByteLimit) (buffer : List Char) :
    Option (List LimEv × List Char × ByteLimit) :=
  let available := st.delivered + buffer.length
  if thTruthy st.threshold ∧ available < st.threshold.getD 0 then none
  else
    let count := if available > st.limit then st.limit - st.delivered else buffer.length
    let send := if available > st.limit then buffer.take (st.limit - st.delivered) else buffer
    let left := if available > st.limit then buffer.drop (st.limit - st.delivered) else []
    let delivered2 := st.delivered + count
    let evs := [LimEv.limitData send] ++
      (if delivered2 = st.limit then [LimEv.limitReached] else [])
    some (evs, left, { st with delivered := delivered2 })

/-- A direct sequence of ByteLimit.scan calls, one buffer each; a stalled
call delivers nothing and leaves the state unchanged (the Scannable would
retain the buffer). Returns the per-call callout lists and the final
state. -/
def ByteLimit.runScans (st : ByteLimit) : List (List Char) → List (List LimEv) × ByteLimit
  | [] => ([], st)
  | b :: bs =>
      match ByteLimit.scan st b with
      | none =>
          let r := ByteLimit.runScans st bs
          ([] :: r.1, r.2)
      | some (evs, _, st2) =>
          let r := ByteLimit.runScans st2 bs
          (evs :: r.1, r.2)

/-- Number of limit-reached callouts in a run. -/
def countReached (evss : List (List LimEv)) : Nat :=
  (evss.flatten.filter (fun e => e = LimEv.limitReached)).length

/-- Total byte count of a sequence of buffers. -/
def sumLen (bs : List (List Char)) : Nat := (bs.map List.length).sum

/- ============================================================
   asyn/controller.py : Scheduled timers and _dispatch
   ============================================================ -/

/-- A Controller.Scheduled entry: the identity of the timer and its fire
time; when = none is the cancelled mark left by cancel(). Timestamps are
integers, since the dispatch logic only compares and adds them. -/
structure Scheduled where
  sid : Nat
  when : Option Int
deriving DecidableEq, Repr

/-- Scheduled.cancel: clears the fire time; the entry stays queued and is
discarded lazily when it surfaces. -/
def Scheduled.cancel (s : Scheduled) : Scheduled := { s with when := none }

/-- The Scheduled comparison behind the heap order: Python 2 cmp sorts None
below every number, so cancelled entries sort to the front. -/
def whenLE : Option Int → Option Int → Bool
  | none, _ => true
  | some _, none => false
  | some a, some b => a ≤ b

/-- Selection of a minimal entry among x and the entries of the list,
leftmost among ties, returning it with the other entries. -/
def popMin1 (x : Scheduled) : List Scheduled → Scheduled × List Scheduled
  | [] => (x, [])
  | y :: ys =>
      let p := popMin1 y ys
      if whenLE x.when p.1.when then (x, y :: ys) else (p.1, x :: p.2)

/-- Extract a minimal entry from the queue, leftmost among ties. The source
keeps _schedq as a heapq binary heap, observed only through heappush,
heappop and peeking _schedq[0]; that observable contract is pop-min, which
this selection realises. -/
def popMin : List Scheduled → Option (Scheduled × List Scheduled)
  | [] => none
  | x :: rest => some (popMin1 x rest)

/-- Controller.schedule from asyn/controller.py for an existing Scheduled
entity: the fire time is at when given, now + after when only after is
given, now otherwise; the entity's when is updated and the entity is pushed
onto the queue. Returns the queue and the (re)scheduled entity. -/
def Controller.schedule (q : List Scheduled) (now : Int) (entity : Scheduled)
    (at? after? : Option Int) : List Scheduled × Scheduled :=
  let when :=
    match at? with
    | some a => a
    | none =>
        match after? with
        | some d => now + d
        | none => now
  let e := { entity with when := some when }
  (q ++ [e], e)

/-- The reschedule method of the timer context Ctx built in
Controller._dispatch. Its guards are truthiness tests: reschedule(at=a)
reschedules absolutely when a is neither None nor zero, otherwise
reschedule(after=d) with d neither None nor zero reschedules to
self.when + d, the fire time carried by the context (the prior fire time of
this very timer), not the current clock; with both arguments falsy nothing
happens. Returns the queue and the entry as (re)scheduled, if any. -/
def Ctx.reschedule (q : List Scheduled) (now : Int) (sched : Scheduled)
    (ctxWhen : Int) (at? after? : Option Int) : List Scheduled × Scheduled :=
  match at? with
  | some a =>
      if a ≠ 0 then Controller.schedule q now sched (some a) none
      else
        match after? with
        | some d =>
            if d ≠ 0 then Controller.schedule q now sched (some (ctxWhen + d)) none
            else (q, sched)
        | none => (q, sched)
  | none =>
      match after? with
      | some d =>
          if d ≠ 0 then Controller.schedule q now sched (some (ctxWhen + d)) none
          else (q, sched)
      | none => (q, sched)

/-- Controller._dispatch from asyn/controller.py, with callouts recorded
rather than executed (no callout mutates the queue here). The loop runs
while the running flag holds and the queue is nonempty, with the backstop
counter bounding the burst: each iteration decrements it and gives up when
it drops below zero, which from TIMERLIMIT = 1000 allows 1001 iterations.
Each iteration inspects the queue head: a cancelled entry is popped and
discarded; an entry not yet due stops the loop; a due entry is popped and
fired, recording (sid, when) with when also handed to the timer context.
Returns the fired list in order and the remaining queue. -/
def dispatchLoop (now : Int) (running : Bool) :
    Nat → List Scheduled → List (Nat × Int) × List Scheduled
  | 0, q => ([], q)
  | backstop + 1, q =>
      if running = false then ([], q)
      else
        match popMin q with
        | none => ([], q)
        | some (top, rest) =>
            match top.when with
            | none => dispatchLoop now running backstop rest
            | some w =>
                if w > now then ([], q)
                else
                  let r := dispatchLoop now running backstop rest
                  ((top.sid, w) :: r.1, r.2)

/-- TIMERLIMIT from the source. -/
def TIMERLIMIT : Nat := 1000

/-- One Controller._dispatch call: the backstop counter starts at TIMERLIMIT
and is decremented at the top of every iteration with the loop giving up
when it goes negative, which allows exactly TIMERLIMIT productive
iterations. -/
def dispatch (now : Int) (running : Bool) (q : List Scheduled) :
    List (Nat × Int) × List Scheduled :=
  dispatchLoop now running TIMERLIMIT q

/-- Fire time of the n-th reschedule of a periodic timer that always
reschedules itself with after=d from within its own callout. At every
firing the loop is late by an arbitrary amount (lateness n), so the clock
reads prior + lateness n when reschedule runs; the context carries the
prior fire time, which afterward-rescheduling uses. -/
def reschedNth (w0 d : Int) (lateness : Nat → Int) : Nat → Int
  | 0 => w0
  | n + 1 =>
      let prior := reschedNth w0 d lateness n
      let p := Ctx.reschedule [] (prior + lateness n) ⟨0, some prior⟩ prior none (some d)
      (p.2.when).getD 0

/- ============================================================
   asyn/scan.py : Regex scanner and the Scannable mix-in
   ============================================================ -/

/-- Index of the first newline in the buffer. -/
def findNL : List Char → Option Nat
  | [] => none
  | c :: rest => if c = '\n' then some 0 else (findNL rest).map (· + 1)

/-- The compiled patterns the scanner claims exercise: a literal byte
string, and the line pattern of one newline-terminated group — the rule
Command uses, r ([^\n]*)\n. -/
inductive Pat where
  | lit (p : List Char)
  | line
deriving DecidableEq, Repr

/-- Anchored re.match for these pattern shapes: the number of bytes matched
at the head of the buffer and the captured groups m.groups(). A literal
matches itself with no groups; the line pattern matches up to and including
the first newline and captures the bytes before it. -/
def Pat.matchPrefix : Pat → List Char → Option (Nat × List (List Char))
  | .lit p, buf => if p.isPrefixOf buf then some (p.length, []) else none
  | .line, buf =>
      match findNL buf with
      | none => none
      | some i => some (i + 1, [buf.take i])

/-- A rule is a pattern with its state value; state None models a falsy
state, which consumes its match but suppresses the callout. -/
abbrev ScanRule := Pat × Option (List Char)

/-- A decoded callout event: the state of the Context and the match groups
passed as positional arguments. -/
abbrev ScanEv := List Char × List (List Char)

/-- The rule loop inside Regex.scan: the first matching rule wins; a truthy
state emits the event; the match is consumed either way; no match is a
scan failure. -/
def tryRules : List ScanRule → List Char → Option (List ScanEv × List Char)
  | [], _ => none
  | (pat, state) :: rs, buf =>
      match pat.matchPrefix buf with
      | some (len, groups) =>
          some ((match state with
                 | some s => [(s, groups)]
                 | none => []), buf.drop len)
      | none => tryRules rs buf

/-- Regex.scan from asyn/scan.py: an empty buffer returns None (wait for
more data), otherwise the ordered rules are tried. -/
def Regex.scan (rules : List ScanRule) (buf : List Char) :
    Option (List ScanEv × List Char) :=
  if buf = [] then none
  else tryRules rules buf

/-- The while loop of Scannable._scan: keep invoking the scanner on the
buffer until it is empty or the scanner reports no progress, accumulating
the callouts; the fuel argument bounds the iterations. Callouts here do not
mutate the Scannable, so the buffer at the re-assignment after a scan call
is never empty and simply becomes the returned remainder. For rules whose
every match consumes at least one byte (all literal rules with nonempty
literals, and the line rule) any fuel above the buffer length is enough,
matching the unbounded Python loop; a rule matching zero bytes loops
forever in Python. -/
def scanLoop (rules : List ScanRule) : Nat → List Char → List ScanEv × List Char
  | 0, rbuf => ([], rbuf)
  | fuel + 1, rbuf =>
      match Regex.scan rules rbuf with
      | none => ([], rbuf)
      | some (evs, rest) =>
          let r := scanLoop rules fuel rest
          (evs ++ r.1, r.2)

/-- One Scannable._scan call: append the arriving data to the retained
buffer and run the scan loop (with its sufficient fuel budget). Returns
the callouts of this call and the retained buffer afterwards. -/
def scannableFeed (rules : List ScanRule) (rbuf data : List Char) :
    List ScanEv × List Char :=
  scanLoop rules ((rbuf ++ data).length + 1) (rbuf ++ data)

/-- Deliver a sequence of chunks through successive _scan calls starting
from the retained buffer st, concatenating the callouts in order. -/
def feedChunks (rules : List ScanRule) (st : List Char) :
    List (List Char) → List ScanEv × List Char
  | [] => ([], st)
  | c :: cs =>
      let p := scannableFeed rules st c
      let r := feedChunks rules p.2 cs
      (p.1 ++ r.1, r.2)

/-- The state value of the Command line rule. -/
def cmdState : List Char := 'c' :: 'o' :: 'm' :: 'm' :: 'a' :: 'n' :: 'd' :: []

/-- The ruleset of selectable.py Command: one rule, newline-terminated line
with state command. -/
def lineRules : List ScanRule := [(Pat.line, some cmdState)]

/-- Specification view of line scanning: the complete newline-terminated
lines of a byte string (without their newlines) and the unterminated
remainder. -/
def splitLines : List Char → List (List Char) × List Char
  | [] => ([], [])
  | c :: rest =>
      let p := splitLines rest
      if c = '\n' then ([] :: p.1, p.2)
      else
        match p.1 with
        | l :: ls => ((c :: l) :: ls, p.2)
        | [] => ([], c :: p.2)

end Asyn

/- ============================================================
   Theorems
   ============================================================ -/

namespace Asyn

/-- C3: for every sequence of add/remove/set/clear operations on a Callable
and any behaviour of the observers (each may add or remove observers,
including itself, while the callout runs), a single callout invokes exactly
the observers registered at the moment the callout was entered, in the order
of that list. The invoked sequence produced by the dispatch fold equals the
latched registration list. -/
theorem callout_invokes_entry_snapshot (ops : List FunnelOp) (eff : Obs → List FunnelOp) :
    (Callable.callout eff (Callable.runOps ops)).1 = Callable.runOps ops := by
  have main : ∀ (l acc : List Obs) (live : List Obs),
      (l.foldl (fun acc o => (acc.1 ++ [o], runObserver eff acc.2 o)) (acc, live)).1
        = acc ++ l := by
    intro l
    induction l with
    | nil => intro acc live; simp
    | cons x xs ih =>
        intro acc live
        simp only [List.foldl_cons]
        rw [ih]
        simp
  unfold Callable.callout
  simpa using main (Callable.runOps ops) [] (Callable.runOps ops)

/-- C1 (refutation by evaluation): the chunked-transfer round trip does not
reproduce the written bytes. Writing the single buffer ABC and flushing
produces the wire bytes 3 CR LF ABC CR LF 0 CR LF CR LF; feeding that wire
back through the incoming path delivers ABC CR LF downstream, not ABC: the
sendlen computation in _pass_downstream, rlen - min(2 - remain, 0), never
subtracts the trailing CR LF of a chunk (its comment announces the
opposite intent), so each fully received chunk leaks its CR LF trailer.
The empty-input case does round-trip. -/
theorem chunked_roundtrip_fails :
    (passDownstream chunkOpen (chunkedEncode [['A', 'B', 'C']])).sentBytes
        = ['A', 'B', 'C', '\r', '\n'] ∧
    (passDownstream chunkOpen (chunkedEncode [['A', 'B', 'C']])).sentBytes
        ≠ ['A', 'B', 'C'] ∧
    (passDownstream chunkOpen (chunkedEncode [])).sentBytes = [] := by
  decide

/-- C2 (refutation by evaluation): the gzip write path loses every write
after the first, because upstream.write of the compressed bytes is nested
inside the lazy-initialisation branch of GZipCoder.write. Writing A then B
and flushing passes upstream a stream that decompresses to A alone, not AB;
a single write and the empty sequence survive the round trip. -/
theorem gzip_roundtrip_fails :
    gzipDownstreamBytes (gzipUpstreamBytes [['A'], ['B']]) = ['A'] ∧
    gzipDownstreamBytes (gzipUpstreamBytes [['A'], ['B']]) ≠ ['A', 'B'] ∧
    gzipDownstreamBytes (gzipUpstreamBytes [['A']]) = ['A'] ∧
    gzipDownstreamBytes (gzipUpstreamBytes []) = [] := by
  decide

/-- C7 counterexample: the claim that a non-would-block OS error surfaces an
ERROR event and the object is then closed fails at the concrete input of a
read error errno 5 on an open Stream: the ERROR callout is emitted but the
Stream stays registered (control still set) and no CLOSE occurs. -/
theorem stream_error_not_closed_cx :
    (Stream.canRead ⟨true, [], [], false, []⟩ (ReadResult.failed (OSErr.other 5))).events
      = [StreamEv.errorEv (OSErr.other 5)] ∧
    (Stream.canRead ⟨true, [], [], false, []⟩ (ReadResult.failed (OSErr.other 5))).control
      = true ∧
    StreamEv.closed ∉
      (Stream.canRead ⟨true, [], [], false, []⟩ (ReadResult.failed (OSErr.other 5))).events := by
  decide

/-- C7 amended: any OS error on the read path (would-block included, the
read path has no EAGAIN exemption) is surfaced as an ERROR event on the
funnel, with the object left open and otherwise untouched; a write error
other than EAGAIN is likewise surfaced as an ERROR event without closing
the object; EAGAIN on write is absorbed silently. In every case the failed
operation is attempted exactly once within the readiness callback — the
erroring branch returns without retrying. -/
theorem stream_error_surfaced_not_closed (s : StreamSt) (e : OSErr) :
    Stream.canRead s (ReadResult.failed e)
        = { s with events := s.events ++ [StreamEv.errorEv e] } ∧
    (s.wbuf ≠ [] → e ≠ OSErr.eagain →
      Stream.canWrite s (WriteResult.failed e)
        = { s with events := s.events ++ [StreamEv.errorEv e] }) ∧
    (s.wbuf ≠ [] → Stream.canWrite s (WriteResult.failed OSErr.eagain) = s) := by
  refine ⟨rfl, ?_, ?_⟩
  · intro hw he
    unfold Stream.canWrite
    rw [if_pos hw]
    simp [he]
  · intro hw
    unfold Stream.canWrite
    rw [if_pos hw]
    simp

/-- Witness for stream_error_surfaced_not_closed at a concrete open Stream
with one pending write byte and errno 5. -/
theorem stream_error_surfaced_not_closed_witness :
    Stream.canWrite ⟨true, [], ['X'], false, []⟩ (WriteResult.failed (OSErr.other 5))
      = ⟨true, [], ['X'], false, [StreamEv.errorEv (OSErr.other 5)]⟩ ∧
    Stream.canWrite ⟨true, [], ['X'], false, []⟩ (WriteResult.failed OSErr.eagain)
      = ⟨true, [], ['X'], false, []⟩ := by
  have h := stream_error_surfaced_not_closed ⟨true, [], ['X'], false, []⟩ (OSErr.other 5)
  exact ⟨h.2.1 (by decide) (by decide), h.2.2 (by decide)⟩

/-- C8 (refutation by evaluation plus the surviving contract): inject_wait
cannot return the value None. The caller waits under the loop guard
`reply error is None and reply value is None`, which an injected call that
returns None never falsifies, so the calling thread blocks forever — the
modelled outer none — although the docstring promises the evaluated value
unconditionally. Calls returning any non-None value get exactly that value
back, and a raising call re-raises exactly its exception. -/
theorem inject_wait_blocks_on_none :
    inject_wait (Except.ok PyVal.vNone) = none ∧
    (∀ v : PyVal, v ≠ PyVal.vNone → inject_wait (Except.ok v) = some (Except.ok v)) ∧
    (∀ e : PyExc, inject_wait (Except.error e) = some (Except.error e)) := by
  refine ⟨by rfl, ?_, ?_⟩
  · intro v hv
    unfold inject_wait injectRunner
    simp [hv]
  · intro e
    unfold inject_wait injectRunner
    simp

/-- Witness for inject_wait_blocks_on_none at the concrete value 7. -/
theorem inject_wait_blocks_on_none_witness :
    inject_wait (Except.ok (PyVal.vInt 7)) = some (Except.ok (PyVal.vInt 7)) :=
  inject_wait_blocks_on_none.2.1 (PyVal.vInt 7) (by decide)

/-- With no threshold installed, a scan call that stays strictly below the
budget delivers the whole buffer and reaches nothing. -/
theorem ByteLimit.scan_below (L d : Nat) (b : List Char) (h : d + b.length < L) :
    ByteLimit.scan ⟨L, none, d⟩ b
      = some ([LimEv.limitData b], [], ⟨L, none, d + b.length⟩) := by
  unfold ByteLimit.scan thTruthy
  have h1 : ¬(d + b.length > L) := by omega
  have h2 : ¬(d + b.length = L) := by omega
  simp [h1, h2]

/-- With no threshold installed, a scan call that lands exactly on the
budget delivers the whole buffer and emits limit-reached. -/
theorem ByteLimit.scan_exact (L d : Nat) (b : List Char) (h : d + b.length = L) :
    ByteLimit.scan ⟨L, none, d⟩ b
      = some ([LimEv.limitData b, LimEv.limitReached], [], ⟨L, none, L⟩) := by
  unfold ByteLimit.scan thTruthy
  have h1 : ¬(d + b.length > L) := by omega
  simp [h1, h]

/-- The run produces one callout list per scan call. -/
theorem ByteLimit.runScans_length (bs : List (List Char)) :
    ∀ st : ByteLimit, (ByteLimit.runScans st bs).1.length = bs.length := by
  induction bs with
  | nil => intro st; rfl
  | cons b bs ih =>
      intro st
      unfold ByteLimit.runScans
      cases ByteLimit.scan st b with
      | none => simpa using ih st
      | some r => simpa using ih r.2.2

/-- C9 counterexample: with budget 2 the scan sequence AB then C emits
limit-reached twice — once when the second byte lands on the budget and
again on the following call, whose zero-byte delivery leaves the count at
the limit and re-triggers the equality test — refuting emitted exactly
once. -/
theorem bytelimit_reached_twice_cx :
    countReached (ByteLimit.runScans (ByteLimit.init 2 none) [['A', 'B'], ['C']]).1 = 2 := by
  decide

/-- C9 amended: the limit-reached callout is emitted at every scan call at
whose end exactly L bytes have been delivered, so it fires exactly once —
at the point where the cumulative delivery first equals L — provided no
further scan call follows once the budget is exhausted: over any nonempty
call sequence (threshold unset) whose proper prefixes stay below L and
whose total is exactly L, precisely one limit-reached is emitted, it
occurs in the final call, and the delivered count then equals L. -/
theorem bytelimit_reached_once (L : Nat) :
    ∀ (bs : List (List Char)) (d : Nat),
      bs ≠ [] →
      d + sumLen bs = L →
      (∀ k, k + 1 < bs.length → d + sumLen (bs.take (k + 1)) < L) →
      countReached (ByteLimit.runScans ⟨L, none, d⟩ bs).1 = 1 ∧
      (ByteLimit.runScans ⟨L, none, d⟩ bs).2.delivered = L ∧
      LimEv.limitReached ∈ ((ByteLimit.runScans ⟨L, none, d⟩ bs).1.getLast?).getD [] := by
  intro bs
  induction bs with
  | nil => intro d hne; exact absurd rfl hne
  | cons b bs ih =>
      intro d hne htot hpre
      cases hbs : bs with
      | nil =>
          subst hbs
          have hx : d + b.length = L := by
            simpa [sumLen] using htot
          unfold ByteLimit.runScans
          rw [ByteLimit.scan_exact L d b hx]
          refine ⟨?_, rfl, ?_⟩
          · simp [ByteLimit.runScans, countReached]
          · simp [ByteLimit.runScans]
      | cons b2 bs2 =>
          subst hbs
          have h0 : d + b.length < L := by
            have := hpre 0 (by simp)
            simpa [sumLen] using this
          have hrec := ih (d + b.length)
            (by simp)
            (by simp [sumLen] at htot ⊢; omega)
            (by
              intro k hk
              have := hpre (k + 1) (by simpa using Nat.succ_lt_succ hk)
              simp [sumLen] at this ⊢
              omega)
          unfold ByteLimit.runScans
          rw [ByteLimit.scan_below L d b h0]
          dsimp only
          have hlen : (ByteLimit.runScans ⟨L, none, d + b.length⟩ (b2 :: bs2)).1.length
              = (b2 :: bs2).length := ByteLimit.runScans_length _ _
          refine ⟨?_, hrec.2.1, ?_⟩
          · have : countReached
                ([LimEv.limitData b] ::
                  (ByteLimit.runScans ⟨L, none, d + b.length⟩ (b2 :: bs2)).1)
                = countReached (ByteLimit.runScans ⟨L, none, d + b.length⟩ (b2 :: bs2)).1 := by
              simp [countReached]
            rw [this]
            exact hrec.1
          · cases hr : (ByteLimit.runScans ⟨L, none, d + b.length⟩ (b2 :: bs2)).1 with
            | nil => rw [hr] at hlen; simp at hlen
            | cons e es =>
                have hlast := hrec.2.2
                rw [hr] at hlast
                rw [List.getLast?_cons_cons]
                exact hlast

/-- Witness for bytelimit_reached_once: budget 3, calls AB then C. -/
theorem bytelimit_reached_once_witness :
    countReached (ByteLimit.runScans ⟨3, none, 0⟩ [['A', 'B'], ['C']]).1 = 1 ∧
    (ByteLimit.runScans ⟨3, none, 0⟩ [['A', 'B'], ['C']]).2.delivered = 3 := by
  have h := bytelimit_reached_once 3 [['A', 'B'], ['C']] 0 (by decide)
    (by decide)
    (by
      intro k hk
      have hk0 : k = 0 := by simp at hk; omega
      subst hk0
      decide)
  exact ⟨h.1, h.2.1⟩

theorem findNL_none_split {s : List Char} (h : findNL s = none) :
    splitLines s = ([], s) := by
  induction s with
  | nil => rfl
  | cons c cs ih =>
      unfold findNL at h
      by_cases hc : c = '\n'
      · rw [if_pos hc] at h
        simp at h
      · rw [if_neg hc] at h
        have h2 : findNL cs = none := by
          cases hx : findNL cs with
          | none => rfl
          | some j => rw [hx] at h; simp at h
        simp [splitLines, ih h2, hc]

theorem splitLines_rem_noNL : ∀ s : List Char, findNL (splitLines s).2 = none := by
  intro s
  induction s with
  | nil => rfl
  | cons c cs ih =>
      by_cases hc : c = '\n'
      · simp only [splitLines, if_pos hc]
        exact ih
      · simp only [splitLines, if_neg hc]
        cases h1 : (splitLines cs).1 with
        | cons l ls => exact ih
        | nil =>
            dsimp only
            unfold findNL
            rw [if_neg hc, ih]
            rfl

theorem findNL_bound : ∀ {s : List Char} {i : Nat}, findNL s = some i → i < s.length := by
  intro s
  induction s with
  | nil => intro i h; simp [findNL] at h
  | cons c cs ih =>
      intro i h
      unfold findNL at h
      by_cases hc : c = '\n'
      · rw [if_pos hc] at h
        cases h
        simp
      · rw [if_neg hc] at h
        rcases Option.map_eq_some'.mp h with ⟨j, hj, hje⟩
        have := ih hj
        subst hje
        simp only [List.length_cons]
        omega

theorem findNL_break :
    ∀ {s : List Char} {i : Nat}, findNL s = some i →
      splitLines s
        = ((s.take i) :: (splitLines (s.drop (i + 1))).1,
           (splitLines (s.drop (i + 1))).2) := by
  intro s
  induction s with
  | nil => intro i h; simp [findNL] at h
  | cons c cs ih =>
      intro i h
      unfold findNL at h
      by_cases hc : c = '\n'
      · rw [if_pos hc] at h
        cases h
        simp [splitLines, if_pos hc]
      · rw [if_neg hc] at h
        rcases Option.map_eq_some'.mp h with ⟨j, hj, hje⟩
        subst hje
        have hcs := ih hj
        simp only [splitLines, if_neg hc, hcs]
        simp

theorem scanLoop_line :
    ∀ (fuel : Nat) (s : List Char), s.length < fuel →
      scanLoop lineRules fuel s
        = ((splitLines s).1.map (fun l => (cmdState, [l])), (splitLines s).2) := by
  intro fuel
  induction fuel with
  | zero => intro s hs; omega
  | succ f ih =>
      intro s hs
      by_cases hnil : s = []
      · subst hnil
        simp [scanLoop, Regex.scan, splitLines]
      · unfold scanLoop Regex.scan
        rw [if_neg hnil]
        unfold lineRules tryRules
        cases hf : findNL s with
        | none =>
            simp only [Pat.matchPrefix, hf]
            rw [findNL_none_split hf]
            simp [tryRules]
        | some i =>
            simp only [Pat.matchPrefix, hf]
            have hb := findNL_bound hf
            have hrest : (s.drop (i + 1)).length < f := by
              simp only [List.length_drop]
              omega
            rw [show lineRules = [(Pat.line, some cmdState)] from rfl] at ih
            rw [ih (s.drop (i + 1)) hrest, findNL_break hf]
            simp

theorem splitLines_append :
    ∀ (a b : List Char),
      splitLines (a ++ b)
        = ((splitLines a).1 ++ (splitLines ((splitLines a).2 ++ b)).1,
           (splitLines ((splitLines a).2 ++ b)).2) := by
  intro a
  induction a with
  | nil => intro b; simp [splitLines]
  | cons c cs ih =>
      intro b
      by_cases hc : c = '\n'
      · have hcons : ∀ x : List Char,
            splitLines (c :: x) = ([] :: (splitLines x).1, (splitLines x).2) := by
          intro x
          simp [splitLines, hc]
        rw [List.cons_append, hcons (cs ++ b), hcons cs, ih b]
        simp
      · have hcons : ∀ x : List Char,
            splitLines (c :: x)
              = (match (splitLines x).1 with
                 | l :: ls => ((c :: l) :: ls, (splitLines x).2)
                 | [] => ([], c :: (splitLines x).2)) := by
          intro x
          simp only [splitLines, if_neg hc]
        rw [List.cons_append, hcons (cs ++ b), hcons cs, ih b]
        cases h1 : (splitLines cs).1 with
        | cons l ls => simp
        | nil =>
            dsimp only
            rw [List.cons_append, hcons ((splitLines cs).2 ++ b)]
            cases h2 : (splitLines ((splitLines cs).2 ++ b)).1 with
            | cons l ls => simp
            | nil => simp

theorem feedChunks_line :
    ∀ (cs : List (List Char)) (st : List Char),
      findNL st = none →
      feedChunks lineRules st cs
        = ((splitLines (st ++ cs.flatten)).1.map (fun l => (cmdState, [l])),
           (splitLines (st ++ cs.flatten)).2) := by
  intro cs
  induction cs with
  | nil =>
      intro st h
      simp [feedChunks, findNL_none_split h]
  | cons c cs ih =>
      intro st h
      unfold feedChunks
      have hp : scannableFeed lineRules st c
          = ((splitLines (st ++ c)).1.map (fun l => (cmdState, [l])),
             (splitLines (st ++ c)).2) :=
        scanLoop_line _ _ (by omega)
      rw [hp]
      dsimp only
      rw [ih _ (splitLines_rem_noNL _)]
      rw [show st ++ (c :: cs).flatten = (st ++ c) ++ cs.flatten by simp]
      rw [splitLines_append (st ++ c) cs.flatten]
      simp

/-- C4 counterexample: boundary independence fails for general ordered
rulesets. With the two literal rules AB tagged x and A tagged y, the whole
buffer AB decodes to the single event x, but the partition A then B decodes
to the event y (the shorter rule fires before the second byte arrives, and
the remaining B then stalls), so the decoded event sequences differ. -/
theorem regex_chunk_dependence_cx :
    (feedChunks [(Pat.lit ['A', 'B'], some ['x']), (Pat.lit ['A'], some ['y'])]
        [] [['A'], ['B']]).1
      ≠ (feedChunks [(Pat.lit ['A', 'B'], some ['x']), (Pat.lit ['A'], some ['y'])]
        [] [['A', 'B']]).1 := by
  decide

/-- C4 amended: boundary independence holds for the newline-terminated line
ruleset that the repository itself installs (Command in selectable.py):
for every byte string and every partition of it into successive chunks, the
Scannable delivers exactly the events of the single-chunk delivery — the
same states and the same match arguments in the same order — and retains
the same remainder. -/
theorem line_scanner_chunk_invariant (chunks : List (List Char)) :
    feedChunks lineRules [] chunks = feedChunks lineRules [] [chunks.flatten] := by
  rw [feedChunks_line chunks [] rfl, feedChunks_line [chunks.flatten] [] rfl]
  simp

theorem whenLE_total {a b : Option Int} (h : whenLE a b = false) : whenLE b a = true := by
  cases a <;> cases b <;> simp [whenLE] at h ⊢ <;> omega

theorem whenLE_trans {a b c : Option Int} (h1 : whenLE a b = true) (h2 : whenLE b c = true) :
    whenLE a c = true := by
  cases a <;> cases b <;> cases c <;> simp [whenLE] at h1 h2 ⊢ <;> omega

theorem popMin1_perm :
    ∀ (xs : List Scheduled) (x : Scheduled),
      (x :: xs).Perm ((popMin1 x xs).1 :: (popMin1 x xs).2) := by
  intro xs
  induction xs with
  | nil => intro x; exact List.Perm.refl _
  | cons y ys ih =>
      intro x
      unfold popMin1
      by_cases hle : whenLE x.when (popMin1 y ys).1.when = true
      · rw [if_pos hle]
      · rw [if_neg hle]
        dsimp only
        exact ((ih y).cons x).trans (List.Perm.swap (popMin1 y ys).1 x (popMin1 y ys).2)

theorem popMin1_min :
    ∀ (xs : List Scheduled) (x : Scheduled), ∀ e ∈ (popMin1 x xs).2,
      whenLE (popMin1 x xs).1.when e.when = true := by
  intro xs
  induction xs with
  | nil => intro x e he; simp [popMin1] at he
  | cons y ys ih =>
      intro x e he
      unfold popMin1 at he ⊢
      by_cases hle : whenLE x.when (popMin1 y ys).1.when = true
      · rw [if_pos hle] at he ⊢
        dsimp only at he ⊢
        rcases List.mem_cons.mp ((popMin1_perm ys y).mem_iff.mp he) with he2 | he2
        · rw [he2]
          exact hle
        · exact whenLE_trans hle (ih y e he2)
      · rw [if_neg hle] at he ⊢
        dsimp only at he ⊢
        rcases List.mem_cons.mp he with he2 | he2
        · subst he2
          exact whenLE_total (by simpa using hle)
        · exact ih y e he2

theorem popMin_perm {q : List Scheduled} {m : Scheduled} {rest : List Scheduled}
    (h : popMin q = some (m, rest)) : q.Perm (m :: rest) := by
  cases q with
  | nil => simp [popMin] at h
  | cons x xs =>
      unfold popMin at h
      injection h with h2
      have hp := popMin1_perm xs x
      rw [h2] at hp
      simpa using hp

theorem popMin_min {q : List Scheduled} {m : Scheduled} {rest : List Scheduled}
    (h : popMin q = some (m, rest)) : ∀ e ∈ rest, whenLE m.when e.when = true := by
  cases q with
  | nil => simp [popMin] at h
  | cons x xs =>
      unfold popMin at h
      injection h with h2
      have hp := popMin1_min xs x
      rw [h2] at hp
      simpa using hp

theorem dispatchLoop_fired_mem (now : Int) (r : Bool) :
    ∀ (fuel : Nat) (q : List Scheduled) (p : Nat × Int),
      p ∈ (dispatchLoop now r fuel q).1 →
      (⟨p.1, some p.2⟩ : Scheduled) ∈ q ∧ p.2 ≤ now := by
  intro fuel
  induction fuel with
  | zero => intro q p h; simp [dispatchLoop] at h
  | succ f ih =>
      intro q p h
      unfold dispatchLoop at h
      by_cases hr : r = false
      · rw [if_pos hr] at h; simp at h
      · rw [if_neg hr] at h
        cases hq : popMin q with
        | none => rw [hq] at h; simp at h
        | some pr =>
            obtain ⟨top, rest⟩ := pr
            rw [hq] at h
            dsimp only at h
            have hperm := popMin_perm hq
            cases hw : top.when with
            | none =>
                rw [hw] at h
                have hm := ih rest p h
                exact ⟨hperm.mem_iff.mpr (List.mem_cons_of_mem _ hm.1), hm.2⟩
            | some w =>
                rw [hw] at h
                dsimp only at h
                by_cases hnow : w > now
                · rw [if_pos hnow] at h; simp at h
                · rw [if_neg hnow] at h
                  dsimp only at h
                  rcases List.mem_cons.mp h with he | hm
                  · have htop : (⟨p.1, some p.2⟩ : Scheduled) = top := by
                      cases top
                      simp at hw
                      subst hw
                      simp at he
                      simp [he]
                    rw [htop]
                    refine ⟨hperm.mem_iff.mpr (List.mem_cons_self _ _), ?_⟩
                    have : p.2 = w := by rw [he]
                    omega
                  · have hm2 := ih rest p hm
                    exact ⟨hperm.mem_iff.mpr (List.mem_cons_of_mem _ hm2.1), hm2.2⟩

theorem dispatchLoop_sorted (now : Int) (r : Bool) :
    ∀ (fuel : Nat) (q : List Scheduled),
      List.Pairwise (fun a b : Nat × Int => a.2 ≤ b.2) (dispatchLoop now r fuel q).1 := by
  intro fuel
  induction fuel with
  | zero => intro q; simp [dispatchLoop]
  | succ f ih =>
      intro q
      unfold dispatchLoop
      by_cases hr : r = false
      · rw [if_pos hr]; simp
      · rw [if_neg hr]
        cases hq : popMin q with
        | none => simp
        | some pr =>
            obtain ⟨top, rest⟩ := pr
            dsimp only
            cases hw : top.when with
            | none => exact ih rest
            | some w =>
                dsimp only
                by_cases hnow : w > now
                · rw [if_pos hnow]; simp
                · rw [if_neg hnow]
                  dsimp only
                  refine List.Pairwise.cons ?_ (ih rest)
                  intro p hp
                  have hm := dispatchLoop_fired_mem now r f rest p hp
                  have hmin := popMin_min hq _ hm.1
                  rw [hw] at hmin
                  simpa [whenLE] using hmin

/-- C5: in one pass of the timer dispatch loop (any clock value, any
backstop fuel, running), the fired callouts are in non-decreasing order of
fire time; every fired pair is an uncancelled entry of the queue whose fire
time has passed; and a timer that was cancelled before the pass (its when
cleared to None) never receives a callout. -/
theorem timer_dispatch_ordered_cancel_safe (now : Int) (q : List Scheduled) :
    List.Pairwise (fun a b : Nat × Int => a.2 ≤ b.2) (dispatch now true q).1 ∧
    (∀ p : Nat × Int, p ∈ (dispatch now true q).1 →
       (⟨p.1, some p.2⟩ : Scheduled) ∈ q ∧ p.2 ≤ now) ∧
    (∀ i : Nat, (∀ e ∈ q, e.sid = i → e.when = none) →
       i ∉ (dispatch now true q).1.map Prod.fst) := by
  refine ⟨dispatchLoop_sorted now true _ q,
          fun p hp => dispatchLoop_fired_mem now true _ q p hp, ?_⟩
  intro i hc hmem
  rcases List.mem_map.mp hmem with ⟨p, hp, hfst⟩
  have hm := dispatchLoop_fired_mem now true _ q p hp
  have := hc _ hm.1 (by simpa using hfst)
  simp at this

/-- Witness for timer_dispatch_ordered_cancel_safe: three timers at 5,
cancelled, and 3, dispatched at clock 10; the cancelled timer 2 does not
fire and the fired list is ordered. -/
theorem timer_dispatch_witness :
    (2 ∉ ((dispatch 10 true [⟨1, some 5⟩, ⟨2, none⟩, ⟨3, some 3⟩]).1.map Prod.fst)) ∧
    List.Pairwise (fun a b : Nat × Int => a.2 ≤ b.2)
      (dispatch 10 true [⟨1, some 5⟩, ⟨2, none⟩, ⟨3, some 3⟩]).1 :=
  ⟨(timer_dispatch_ordered_cancel_safe 10 [⟨1, some 5⟩, ⟨2, none⟩, ⟨3, some 3⟩]).2.2 2
      (by decide),
    (timer_dispatch_ordered_cancel_safe 10 [⟨1, some 5⟩, ⟨2, none⟩, ⟨3, some 3⟩]).1⟩

/-- C6: rescheduling with after=d from within a timer's own callout sets
the new fire time to exactly the timer's own prior fire time plus d — the
current clock (however late the dispatch ran) does not appear — and over
any number of reschedules with arbitrary per-firing lateness the n-th fire
time is exactly the first fire time plus n times d: no drift accumulates.
The hypothesis d does not equal 0 reflects the truthiness guard in the
source: reschedule(after=0) falls through both branches and does not
reschedule at all. -/
theorem reschedule_after_no_drift (d : Int) (hd : d ≠ 0) :
    (∀ (q : List Scheduled) (now : Int) (sched : Scheduled) (w : Int),
      Ctx.reschedule q now sched w none (some d)
        = (q ++ [{ sched with when := some (w + d) }],
           { sched with when := some (w + d) })) ∧
    (∀ (w0 : Int) (lateness : Nat → Int) (n : Nat),
      reschedNth w0 d lateness n = w0 + n * d) := by
  have hstep : ∀ (q : List Scheduled) (now : Int) (sched : Scheduled) (w : Int),
      Ctx.reschedule q now sched w none (some d)
        = (q ++ [{ sched with when := some (w + d) }],
           { sched with when := some (w + d) }) := by
    intro q now sched w
    unfold Ctx.reschedule Controller.schedule
    simp [hd]
  refine ⟨hstep, ?_⟩
  intro w0 lateness n
  induction n with
  | zero => simp [reschedNth]
  | succ k ih =>
      unfold reschedNth
      dsimp only
      rw [hstep, ih]
      simp only [Option.getD_some]
      push_cast
      ring

/-- Witness for reschedule_after_no_drift: period 4, first fire time 100,
every dispatch 7 late; the third fire time is 112. -/
theorem reschedule_after_no_drift_witness :
    reschedNth 100 4 (fun _ => 7) 3 = 112 := by
  rw [(reschedule_after_no_drift 4 (by decide)).2 100 (fun _ => 7) 3]
  decide

/-- C10: the CLOSE event is emitted at most once over a Selectable lifetime.
From any active state (control set, as established by construction), the first
close emits exactly one CLOSE and removes the descriptor from the Controller
map; every later close leaves the event trace and the Controller map
untouched. -/
theorem selectable_close_once (s : SelState) (h : s.control = true) :
    (Selectable.close s).events = s.events ++ [SelEv.closeEv] ∧
    (Selectable.close s).fdmap = Controller.remove s.fdmap s.fd ∧
    (Selectable.close s).control = false ∧
    (∀ n : Nat, Selectable.close^[n] (Selectable.close s) = Selectable.close s) ∧
    countClose (Selectable.close s).events = countClose s.events + 1 := by
  have hclosed : Selectable.close s =
      { s with control := false,
               fdmap := Controller.remove s.fdmap s.fd,
               events := s.events ++ [SelEv.closeEv] } := by
    unfold Selectable.close
    rw [h]
    simp
  refine ⟨by rw [hclosed], by rw [hclosed], by rw [hclosed], ?_, ?_⟩
  · intro n
    have hfix : Selectable.close (Selectable.close s) = Selectable.close s := by
      rw [hclosed]
      unfold Selectable.close
      simp
    induction n with
    | zero => simp
    | succ k ih =>
        rw [Function.iterate_succ_apply', ih, hfix]
  · rw [hclosed]
    unfold countClose
    simp

/-- Witness for selectable_close_once at a concrete freshly constructed
Selectable. -/
theorem selectable_close_once_witness :
    (Selectable.mk' 5 [3]).control = true ∧
    (Selectable.close (Selectable.mk' 5 [3])).events = [SelEv.closeEv] := by
  refine ⟨by decide, ?_⟩
  have h := selectable_close_once (Selectable.mk' 5 [3]) (by decide)
  rw [h.1]
  decide

end Asyn
